import Mathlib

/-!
# Verification of the `madbfs` block cache (`src/source/data/cache.cpp`)

Shallow embedding of the `Page` and `Cache` components.  Machine integers
(`usize`, `u32`) are modelled as `Nat` with explicit `% 2^64` / `% 2^32`
wrapping where the C++ code can overflow; byte buffers are `List Nat`.

The C++ `m_table` (`Lookup`, a hash map from key to list iterator) is an
O(1) index of `m_lru` that the code keeps key-synchronized with the list at
every point (every `m_lru` insertion/removal is paired with the matching
`m_table` insertion/`erase`), so residency is represented here by the list
alone and table lookups become key searches of the list.

The coroutine operations are embedded as sequential state-passing functions
(one task running to completion).  With a single task, the in-flight map
`m_queue` is empty whenever an operation starts and every entry an operation
inserts is erased before the operation finishes with that page, so the
`m_queue.find` wait branch can never obtain a completed future; the
embedding returns the marker `CResult.blocked` there.  A dereference of an
LRU iterator whose element was erased (possible in the miss path of
`Cache::read` when eviction removes the just-inserted page) is C++ undefined
behaviour and is returned as the marker `CResult.ub`.
-/

/-- Byte values (the contents of `char` buffers). -/
abbrev Byte := Nat

/-- `2^64`, the modulus of `usize` arithmetic. -/
def U64 : Nat := 2 ^ 64

/-- `2^32`, the modulus of `u32` arithmetic. -/
def U32 : Nat := 2 ^ 32

/-- Wrapping `usize` subtraction `a - b` (operands reduced mod `2^64`). -/
def sub64 (a b : Nat) : Nat := (a % U64 + (U64 - b % U64)) % U64

/-- `PageKey` from `cache.hpp`: `(id, index)` identity of a page. -/
structure PageKey where
  id : Nat
  index : Nat
deriving DecidableEq, Repr

/-- `Page::dirty_bit = 0x10000000_u32` from `cache.hpp`. -/
def dirty_bit : Nat := 0x10000000

/-- `~dirty_bit` within `u32`, the mask selecting the length bits of `m_size`. -/
def size_mask : Nat := 0xEFFFFFFF

/-- `Page` from `cache.hpp`: key, heap buffer, and the packed `u32 m_size`
whose bit `0x10000000` is the dirty flag. -/
structure Page where
  key : PageKey
  data : List Byte
  msize : Nat
deriving DecidableEq, Repr

/-- `Page::size()`: `m_size & ~dirty_bit`. -/
def Page.size (p : Page) : Nat := p.msize &&& size_mask

/-- `Page::is_dirty()`: `m_size & dirty_bit` (as a truth value). -/
def Page.is_dirty (p : Page) : Bool := p.msize &&& dirty_bit != 0

/-- `Page::set_dirty(bool)`. -/
def Page.set_dirty (p : Page) (set : Bool) : Page :=
  if set then { p with msize := p.msize ||| dirty_bit }
  else { p with msize := p.msize &&& size_mask }

/-- `Page::read(out, offset)`: `size = min((m_size & ~dirty_bit) - offset,
out.size())` in wrapping `usize` arithmetic, then `copy_n` that many bytes
from the buffer at `offset`.  Returns the copied bytes and the returned
count (when the wrap makes `size` exceed the buffer end, the C++ `copy_n`
reads out of bounds; the model's byte list then simply ends early while the
count stays faithful). -/
def Page.read (p : Page) (outLen offset : Nat) : List Byte × Nat :=
  let size := min (sub64 p.size offset) outLen
  (((p.data.drop offset).take size), size)

/-- `Page::write(in, offset)`: copies `in` into the buffer at `offset` and
packs `m_size = static_cast<u32>(offset + in.size()) | (m_size & dirty_bit)`.
Returns the updated page and `in.size()`. -/
def Page.write (p : Page) (inp : List Byte) (offset : Nat) : Page × Nat :=
  let size := offset + inp.length
  let data := (p.data.take offset) ++ inp ++ (p.data.drop (offset + inp.length))
  ({ p with data := data, msize := (size % U32) ||| (p.msize &&& dirty_bit) }, inp.length)

/-- Error codes (`Errc` / `std::errc`); any nonzero value denotes an error. -/
abbrev Errc := Nat

/-- Lookup of a resident page by key (`m_table.find` resolved through the
key-synchronized index; first match of the key in the LRU list). -/
def lruFind : List Page → PageKey → Option Page
  | [], _ => none
  | p :: rest, k => if p.key = k then some p else lruFind rest k

/-- Removal of the (unique) entry holding key `k`, as done by a
`splice`/`erase` of that list node. -/
def lruErase : List Page → PageKey → List Page
  | [], _ => []
  | p :: rest, k => if p.key = k then rest else p :: lruErase rest k

/-- In-place replacement of the entry holding key `k` (mutation through a
list iterator, position preserved). -/
def lruUpdate : List Page → PageKey → Page → List Page
  | [], _, _ => []
  | p :: rest, k, q => if p.key = k then q :: rest else p :: lruUpdate rest k q

/-- The eviction loop body of `Cache::read`/`Cache::write` (lines 106-116 /
184-194): pop `delta` pages off the LRU back, erasing each key from the
table; a dirty victim is spliced onto the end of `m_orphaned`, a clean one
is dropped.  (`m_lru.back()` on an empty list is C++ UB; the loop never
reaches it because `delta <= |lru|`, and the model then leaves the state
unchanged.) -/
def evictLoop : Nat → List Page → List Page → List Page × List Page
  | 0, lru, orph => (lru, orph)
  | Nat.succ d, lru, orph =>
    match lru.getLast? with
    | none => (lru, orph)
    | some back =>
      if back.is_dirty then evictLoop d lru.dropLast (orph ++ [back])
      else evictLoop d lru.dropLast orph

/-- The admission guard around the eviction loop:
`if (m_table.size() > m_max_pages) { delta = size - max; while (delta--) ... }`. -/
def admitEvict (lru orph : List Page) (maxPages : Nat) : List Page × List Page :=
  if lru.length > maxPages then evictLoop (lru.length - maxPages) lru orph
  else (lru, orph)

/-- Ceiling of the base-2 logarithm, by structural recursion on a fuel
argument (`(n + 1) / 2 < n` for `n ≥ 2`, so fuel `n` suffices). -/
def log2Ceil : Nat → Nat → Nat
  | 0, _ => 0
  | fuel + 1, n => if n ≤ 1 then 0 else log2Ceil fuel ((n + 1) / 2) + 1

/-- `std::bit_ceil`: the smallest power of two not less than the argument
(`bit_ceil 0 = 1`). -/
def bitCeil (n : Nat) : Nat := 2 ^ log2Ceil n n

/-- The `Cache` state: LRU list (front = most recently used; the `Lookup`
table is its key index, see the header comment), in-flight queue keys,
orphaned dirty pages, and the two configuration values. -/
structure Cache where
  lru : List Page
  queue : List PageKey
  orphaned : List Page
  page_size : Nat
  max_pages : Nat
deriving DecidableEq, Repr

/-- `Cache::Cache(page_size, max_pages)`:
`m_page_size{ std::bit_ceil(page_size) }, m_max_pages{ max_pages }`. -/
def Cache.new (page_size max_pages : Nat) : Cache :=
  ⟨[], [], [], bitCeil page_size, max_pages⟩

/-- Result of an embedded cache operation: success or error with the state
at return, or one of the two sequential-model markers described in the file
header (`blocked`: an await on the in-flight queue that no other task can
resolve; `ub`: dereference of an erased LRU iterator). -/
inductive CResult (α : Type) where
  | ok (c : Cache) (val : α)
  | err (c : Cache) (e : Errc)
  | blocked
  | ub
deriving DecidableEq, Repr

/-- `OnMiss` callback: given the byte offset (`index * m_page_size`), either
an error or the reported length together with the contents of the size-`P`
buffer after the callback wrote into it (the callback receives the buffer
zero-filled). -/
def OnMiss : Type := Nat → Except Errc (Nat × List Byte)

/-- `OnFlush` callback: bytes and byte offset, yielding an error or the
written count. -/
def OnFlush : Type := List Byte → Nat → Except Errc Nat

/-- `start` of the page span: `static_cast<usize>(offset) / m_page_size`. -/
def pageSpanStart (offset pageSize : Nat) : Nat := offset / pageSize

/-- `last` of the page span:
`(static_cast<usize>(offset) + len - 1) / m_page_size` in wrapping `usize`
arithmetic (for `len = 0`, `offset = 0` the subtraction wraps). -/
def pageSpanLast (offset len pageSize : Nat) : Nat :=
  sub64 (offset + len) 1 / pageSize

/-- `sv::iota(start, last + 1)`: the processed indices `start..last`. -/
def indexRange (start last : Nat) : List Nat := List.range' start (last + 1 - start)

/-- Loop body of `Cache::read` (lines 72-132), one iteration per index. -/
def Cache.readLoop (on_miss : OnMiss) (id : Nat) (outLen offset start : Nat) :
    List Nat → Cache → Nat → List Byte → CResult (Nat × List Byte)
  | [], c, total, acc => .ok c (total, acc)
  | index :: rest, c, total, acc =>
    let key : PageKey := ⟨id, index⟩
    if key ∈ c.queue then .blocked else
    match lruFind c.lru key with
    | some page =>
      let lru1 := page :: lruErase c.lru key
      let lo := if index = start then offset % c.page_size else 0
      let rd := page.read (outLen - total) lo
      Cache.readLoop on_miss id outLen offset start rest
        { c with lru := lru1 } (total + rd.2) (acc ++ rd.1)
    | none =>
      let q1 := c.queue ++ [key]
      match on_miss (index * c.page_size) with
      | .error e => .err { c with queue := q1.erase key } e
      | .ok lenBuf =>
        let pg : Page := ⟨key, lenBuf.2, lenBuf.1 % U32⟩
        let c2 := { c with lru := pg :: c.lru, queue := q1.erase key }
        let ev := admitEvict c2.lru c2.orphaned c2.max_pages
        let c3 := { c2 with lru := ev.1, orphaned := ev.2 }
        match lruFind c3.lru key with
        | none => .ub
        | some page =>
          let lru1 := page :: lruErase c3.lru key
          let lo := if index = start then offset % c.page_size else 0
          let rd := page.read (outLen - total) lo
          Cache.readLoop on_miss id outLen offset start rest
            { c3 with lru := lru1 } (total + rd.2) (acc ++ rd.1)

/-- `Cache::read(id, out, offset, on_miss)`.  `outLen` is `out.size()`; the
result carries the returned count and the bytes copied into `out`. -/
def Cache.read (c : Cache) (id : Nat) (outLen offset : Nat) (on_miss : OnMiss) :
    CResult (Nat × List Byte) :=
  let start := pageSpanStart offset c.page_size
  let last := pageSpanLast offset outLen c.page_size
  Cache.readLoop on_miss id outLen offset start (indexRange start last) c 0 []

/-- The find-or-insert step of `Cache::write` (lines 158-163): the resident
page if the key is found, otherwise the freshly emplaced page
`Page(key, make_unique<char[]>(m_page_size), 0)` (zero-filled buffer,
length `0`, clean). -/
def findOrFresh (l : List Page) (key : PageKey) (pageSize : Nat) : Page :=
  match lruFind l key with
  | some p => p
  | none => ⟨key, List.replicate pageSize 0, 0⟩

/-- Loop body of `Cache::write` (lines 146-195), one iteration per index. -/
def Cache.writeLoop (id : Nat) (inp : List Byte) (offset start : Nat) :
    List Nat → Cache → Nat → CResult Nat
  | [], c, total => .ok c total
  | index :: rest, c, total =>
    let key : PageKey := ⟨id, index⟩
    if key ∈ c.queue then .blocked else
    let pg := findOrFresh c.lru key c.page_size
    let lruRest := lruErase c.lru key
    let lo := if index = start then offset % c.page_size else 0
    let w := min (c.page_size - lo) (inp.length - total)
    let slice := (inp.drop total).take w
    let pg2 := ((pg.write slice lo).1).set_dirty true
    let ev := admitEvict (pg2 :: lruRest) c.orphaned c.max_pages
    Cache.writeLoop id inp offset start rest
      { c with lru := ev.1, orphaned := ev.2 } (total + w)

/-- `Cache::write(id, in, offset)`. -/
def Cache.write (c : Cache) (id : Nat) (inp : List Byte) (offset : Nat) : CResult Nat :=
  let start := pageSpanStart offset c.page_size
  let last := pageSpanLast offset inp.length c.page_size
  Cache.writeLoop id inp offset start (indexRange start last) c 0

/-- Loop body of `Cache::flush` (lines 206-240), one iteration per index. -/
def Cache.flushLoop (on_flush : OnFlush) (id : Nat) :
    List Nat → Cache → CResult Unit
  | [], c => .ok c ()
  | index :: rest, c =>
    let key : PageKey := ⟨id, index⟩
    if key ∈ c.queue then .blocked else
    match lruFind c.lru key with
    | none => Cache.flushLoop on_flush id rest c
    | some page =>
      if page.is_dirty then
        let rd := page.read c.page_size 0
        let page1 := page.set_dirty false
        let c1 := { c with lru := lruUpdate c.lru key page1 }
        match on_flush rd.1 (index * c.page_size) with
        | .error e => .err c1 e
        | .ok _ => Cache.flushLoop on_flush id rest c1
      else Cache.flushLoop on_flush id rest c

/-- `Cache::flush(id, size, on_flush)`:
`num_pages = size / m_page_size + (size % m_page_size != 0)`, indices
`0..num_pages-1`. -/
def Cache.flush (c : Cache) (id : Nat) (size : Nat) (on_flush : OnFlush) : CResult Unit :=
  let num_pages := size / c.page_size + (if size % c.page_size ≠ 0 then 1 else 0)
  Cache.flushLoop on_flush id (List.range num_pages) c

/-- `Cache::get_orphan_pages()`: `std::move(m_orphaned)`. -/
def Cache.get_orphan_pages (c : Cache) : List Page × Cache :=
  (c.orphaned, { c with orphaned := [] })

/-- `Cache::has_orphan_pages()`. -/
def Cache.has_orphan_pages (c : Cache) : Bool := !c.orphaned.isEmpty

/-- `Cache::invalidate()`: clears `m_table` and `m_lru` only. -/
def Cache.invalidate (c : Cache) : Cache := { c with lru := [] }

/-- `Cache::set_page_size(new_page_size)`: stores the argument verbatim and
clears `m_table` and `m_lru` only. -/
def Cache.set_page_size (c : Cache) (new_page_size : Nat) : Cache :=
  { c with page_size := new_page_size, lru := [] }

/-- `Cache::set_max_pages(new_max_pages)`: stores the argument and clears
`m_table` and `m_lru` only. -/
def Cache.set_max_pages (c : Cache) (new_max_pages : Nat) : Cache :=
  { c with max_pages := new_max_pages, lru := [] }

/-! ## Proof-support definitions -/

/-- `n` is a power of two. -/
def PowerOfTwo (n : Nat) : Prop := ∃ k, n = 2 ^ k

/-- The resident keys are pairwise distinct (the `Lookup` table maps each
key to at most one list node). -/
def KeysNodup (l : List Page) : Prop := (l.map Page.key).Nodup

/-- Every page in the orphan sink is dirty. -/
def OrphansDirty (c : Cache) : Prop := ∀ p ∈ c.orphaned, p.is_dirty = true

/-- The orphan-dirty invariant for the state carried by an operation's
result (vacuous for the `blocked`/`ub` markers, which carry no state). -/
def ResultOrphansDirty {α : Type} : CResult α → Prop
  | .ok c _ => OrphansDirty c
  | .err c _ => OrphansDirty c
  | .blocked => True
  | .ub => True

/-- Chunk decomposition invariant: `k` pages remain, `rem` bytes remain to
transfer, the current page offers `cap` bytes and every following page a
full `P`.  If at least two pages remain the current one is filled
completely. -/
def chunkInv : Nat → Nat → Nat → Nat → Prop
  | 0, rem, _, _ => rem = 0
  | 1, rem, cap, _ => 0 < rem ∧ rem ≤ cap
  | k + 2, rem, cap, P => cap < rem ∧ chunkInv (k + 1) (rem - cap) P P

/-- Specification of the pages a `Cache.write` leaves at the LRU front:
processing indices `j, j+1, ...` (`k` of them) with byte cursor `t` and
current-page capacity `cap`, the produced pages appear in reverse index
order (newest first), each holding the corresponding slice of `src`. -/
def FrontDesc (id : Nat) (src : List Byte) (P : Nat) :
    Nat → Nat → Nat → Nat → List Page → Prop
  | 0, _, t, _, fn => fn = [] ∧ t = src.length
  | k + 1, j, t, cap, fn =>
    ∃ w p fn', w = min cap (src.length - t) ∧ fn = fn' ++ [p] ∧
      p.key = ⟨id, j⟩ ∧ p.data.length = P ∧ p.size = (P - cap) + w ∧
      p.is_dirty = true ∧
      ((p.data.drop (P - cap)).take w = (src.drop t).take w) ∧
      FrontDesc id src P k (j + 1) (t + w) P fn'

/-- Find-based residency specification consumed by the read-back proof:
for `k` indices from `j` with cursor `t` and capacity `cap`, each page is
resident and holds the corresponding slice of `src`. -/
def SpanSpecFind (id : Nat) (src : List Byte) (P : Nat) (c : Cache) :
    Nat → Nat → Nat → Nat → Prop
  | 0, _, t, _ => t = src.length
  | k + 1, j, t, cap =>
    ∃ w p, w = min cap (src.length - t) ∧ lruFind c.lru ⟨id, j⟩ = some p ∧
      p.data.length = P ∧ p.size = (P - cap) + w ∧
      ((p.data.drop (P - cap)).take w = (src.drop t).take w) ∧
      SpanSpecFind id src P c k (j + 1) (t + w) P

/-! ## Arithmetic and bit-packing lemmas -/

theorem sub64_exact {a b : Nat} (hb : b ≤ a) (ha : a < U64) : sub64 a b = a - b := by
  have h64 : U64 = 18446744073709551616 := by norm_num [U64]
  simp only [sub64, h64] at *
  omega

theorem sub64_wrap {a b : Nat} (hab : a < b) (hb : b < U64) : sub64 a b = U64 - (b - a) := by
  have h64 : U64 = 18446744073709551616 := by norm_num [U64]
  simp only [sub64, h64] at *
  omega

theorem sub64_one {a : Nat} (h0 : 0 < a) (ha : a ≤ U64) : sub64 a 1 = a - 1 := by
  have h64 : U64 = 18446744073709551616 := by norm_num [U64]
  simp only [sub64, h64] at *
  omega

theorem land_mask_of_lt {a : Nat} (h : a < 2 ^ 28) : a &&& size_mask = a := by
  apply Nat.eq_of_testBit_eq
  intro i
  rw [Nat.testBit_land]
  rcases lt_or_ge i 28 with hi | hi
  · have hm : size_mask.testBit i = true := by interval_cases i <;> decide
    rw [hm, Bool.and_true]
  · have ha : a.testBit i = false :=
      Nat.testBit_eq_false_of_lt (h.trans_le (Nat.pow_le_pow_right (by norm_num) hi))
    rw [ha, Bool.false_and]

theorem lor_land_distrib (x y z : Nat) : (x ||| y) &&& z = (x &&& z) ||| (y &&& z) := by
  apply Nat.eq_of_testBit_eq
  intro i
  simp only [Nat.testBit_land, Nat.testBit_lor]
  cases x.testBit i <;> cases y.testBit i <;> cases z.testBit i <;> rfl

theorem dirty_land_mask : dirty_bit &&& size_mask = 0 := by decide

theorem land_dirty_of_lt {a : Nat} (h : a < 2 ^ 28) : a &&& dirty_bit = 0 := by
  have hd : dirty_bit = 2 ^ 28 := by norm_num [dirty_bit]
  rw [hd, Nat.and_two_pow]
  have : a.testBit 28 = false := Nat.testBit_eq_false_of_lt h
  simp [this]

theorem pack_land_mask {a x : Nat} (h : a < 2 ^ 28) :
    (a ||| (x &&& dirty_bit)) &&& size_mask = a := by
  rw [lor_land_distrib, land_mask_of_lt h, Nat.land_assoc, dirty_land_mask,
    Nat.and_zero, Nat.or_zero]

theorem pack_lor_dirty_land_mask {a x : Nat} (h : a < 2 ^ 28) :
    ((a ||| (x &&& dirty_bit)) ||| dirty_bit) &&& size_mask = a := by
  rw [lor_land_distrib, pack_land_mask h, dirty_land_mask, Nat.or_zero]

theorem pack_land_dirty {a x : Nat} (h : a < 2 ^ 28) :
    (a ||| (x &&& dirty_bit)) &&& dirty_bit = x &&& dirty_bit := by
  rw [lor_land_distrib, land_dirty_of_lt h, Nat.land_assoc, Nat.and_self, Nat.zero_or]

theorem lor_dirty_testBit (x : Nat) : (x ||| dirty_bit).testBit 28 = true := by
  rw [Nat.testBit_lor]
  have : dirty_bit.testBit 28 = true := by decide
  simp [this]

theorem lor_dirty_ne_zero (x : Nat) : (x ||| dirty_bit) ≠ 0 := by
  intro h
  have := lor_dirty_testBit x
  rw [h] at this
  exact absurd this (by decide)

/-! ## Page operation lemmas -/

theorem Page.size_lt_u64 (p : Page) : p.size < U64 := by
  have h1 : p.size ≤ size_mask := Nat.and_le_right
  have h2 : size_mask < U64 := by norm_num [size_mask, U64]
  omega

theorem Page.set_dirty_true_is_dirty (p : Page) : (p.set_dirty true).is_dirty = true := by
  simp only [Page.set_dirty, Page.is_dirty, if_true]
  have hd : dirty_bit = 2 ^ 28 := by norm_num [dirty_bit]
  rw [lor_land_distrib]
  simp only [ne_eq, bne_iff_ne]
  intro h
  have h0 : (p.msize &&& dirty_bit) ||| (dirty_bit &&& dirty_bit) ≠ 0 := by
    rw [Nat.and_self]
    exact lor_dirty_ne_zero _
  exact h0 h

theorem Page.set_dirty_true_size (p : Page) : (p.set_dirty true).size = p.size := by
  simp only [Page.set_dirty, Page.size, if_true]
  rw [lor_land_distrib, dirty_land_mask, Nat.or_zero]

theorem Page.set_dirty_false_is_dirty (p : Page) : (p.set_dirty false).is_dirty = false := by
  show (({ p with msize := p.msize &&& size_mask } : Page).is_dirty) = false
  simp only [Page.is_dirty]
  rw [Nat.land_assoc]
  have : size_mask &&& dirty_bit = 0 := by decide
  rw [this, Nat.and_zero]
  simp

theorem Page.set_dirty_false_size (p : Page) : (p.set_dirty false).size = p.size := by
  show (({ p with msize := p.msize &&& size_mask } : Page).size) = p.size
  simp only [Page.size]
  rw [Nat.land_assoc]
  have : size_mask &&& size_mask = size_mask := Nat.and_self _
  rw [this]

theorem Page.write_data (p : Page) (inp : List Byte) (lo : Nat) :
    (p.write inp lo).1.data
      = p.data.take lo ++ inp ++ p.data.drop (lo + inp.length) := rfl

theorem Page.write_count (p : Page) (inp : List Byte) (lo : Nat) :
    (p.write inp lo).2 = inp.length := rfl

theorem Page.write_data_length (p : Page) (inp : List Byte) (lo : Nat)
    (h : lo + inp.length ≤ p.data.length) :
    (p.write inp lo).1.data.length = p.data.length := by
  rw [Page.write_data]
  simp only [List.length_append, List.length_take, List.length_drop]
  omega

theorem drop_take_middle {lo : Nat} (a b c : List Byte) (hl : a.length = lo) :
    ((a ++ b ++ c).drop lo).take b.length = b := by
  subst hl
  rw [List.append_assoc, List.drop_left]
  exact List.take_left b c

theorem Page.write_readback (p : Page) (inp : List Byte) (lo : Nat)
    (h : lo + inp.length ≤ p.data.length) :
    ((p.write inp lo).1.data.drop lo).take inp.length = inp := by
  rw [Page.write_data]
  exact drop_take_middle _ _ _ (by rw [List.length_take]; omega)

theorem Page.write_size (p : Page) (inp : List Byte) (lo : Nat)
    (h : lo + inp.length < 2 ^ 28) :
    (p.write inp lo).1.size = lo + inp.length := by
  have hmod : (lo + inp.length) % U32 = lo + inp.length :=
    Nat.mod_eq_of_lt (h.trans (by norm_num [U32]))
  show ((lo + inp.length) % U32 ||| (p.msize &&& dirty_bit)) &&& size_mask = _
  rw [hmod, pack_land_mask h]

theorem Page.write_is_dirty (p : Page) (inp : List Byte) (lo : Nat)
    (h : lo + inp.length < 2 ^ 28) :
    (p.write inp lo).1.is_dirty = p.is_dirty := by
  have hmod : (lo + inp.length) % U32 = lo + inp.length :=
    Nat.mod_eq_of_lt (h.trans (by norm_num [U32]))
  show (((lo + inp.length) % U32 ||| (p.msize &&& dirty_bit)) &&& dirty_bit != 0)
    = (p.msize &&& dirty_bit != 0)
  rw [hmod, pack_land_dirty h]

theorem Page.write_set_dirty_size (p : Page) (inp : List Byte) (lo : Nat)
    (h : lo + inp.length < 2 ^ 28) :
    (((p.write inp lo).1).set_dirty true).size = lo + inp.length := by
  rw [Page.set_dirty_true_size, Page.write_size p inp lo h]

theorem Page.write_set_dirty_data (p : Page) (inp : List Byte) (lo : Nat) :
    (((p.write inp lo).1).set_dirty true).data = (p.write inp lo).1.data := rfl

theorem Page.write_set_dirty_key (p : Page) (inp : List Byte) (lo : Nat) :
    (((p.write inp lo).1).set_dirty true).key = p.key := rfl

theorem Page.read_spec (p : Page) (outLen offset : Nat) (h : offset ≤ p.size) :
    p.read outLen offset
      = ((p.data.drop offset).take (min (p.size - offset) outLen),
         min (p.size - offset) outLen) := by
  simp only [Page.read, sub64_exact h p.size_lt_u64]

theorem Page.read_wrap_count (p : Page) (outLen offset : Nat)
    (h : p.size < offset) (hoff : offset < U64) :
    (p.read outLen offset).2 = min (U64 - (offset - p.size)) outLen := by
  simp only [Page.read, sub64_wrap h hoff]

/-! ## LRU list lemmas -/

theorem lruFind_append_none {front : List Page} (rest : List Page) (k : PageKey)
    (h : ∀ p ∈ front, p.key ≠ k) :
    lruFind (front ++ rest) k = lruFind rest k := by
  induction front with
  | nil => rfl
  | cons p f ih =>
    have hp : p.key ≠ k := h p (List.mem_cons_self p f)
    simp only [List.cons_append, lruFind, if_neg hp]
    exact ih fun q hq => h q (List.mem_cons_of_mem p hq)

theorem lruErase_append {front : List Page} (rest : List Page) (k : PageKey)
    (h : ∀ p ∈ front, p.key ≠ k) :
    lruErase (front ++ rest) k = front ++ lruErase rest k := by
  induction front with
  | nil => rfl
  | cons p f ih =>
    have hp : p.key ≠ k := h p (List.mem_cons_self p f)
    simp only [List.cons_append, lruErase, if_neg hp, List.cons_inj_right]
    exact ih fun q hq => h q (List.mem_cons_of_mem p hq)

theorem lruErase_of_find_none {l : List Page} {k : PageKey}
    (h : lruFind l k = none) : lruErase l k = l := by
  induction l with
  | nil => rfl
  | cons p rest ih =>
    by_cases hp : p.key = k
    · simp only [lruFind, if_pos hp] at h
      exact absurd h (by simp)
    · simp only [lruFind, if_neg hp] at h
      simp only [lruErase, if_neg hp, List.cons_inj_right]
      exact ih h

theorem lruFind_erase_ne {l : List Page} (k k' : PageKey) (hne : k ≠ k') :
    lruFind (lruErase l k') k = lruFind l k := by
  induction l with
  | nil => rfl
  | cons p rest ih =>
    by_cases hp : p.key = k'
    · simp only [lruErase, if_pos hp, lruFind, if_neg (hp ▸ (fun h => hne h.symm) : ¬p.key = k)]
    · by_cases hk : p.key = k
      · simp only [lruErase, if_neg hp, lruFind, if_pos hk]
      · simp only [lruErase, if_neg hp, lruFind, if_neg hk]
        exact ih

theorem lruErase_sublist (l : List Page) (k : PageKey) : List.Sublist (lruErase l k) l := by
  induction l with
  | nil => exact List.Sublist.refl _
  | cons p rest ih =>
    by_cases hp : p.key = k
    · simp only [lruErase, if_pos hp]
      exact List.Sublist.cons p (List.Sublist.refl rest)
    · simp only [lruErase, if_neg hp]
      exact List.Sublist.cons₂ p ih

theorem lruFind_mem {l : List Page} {k : PageKey} {p : Page}
    (h : lruFind l k = some p) : p ∈ l := by
  induction l with
  | nil => simp [lruFind] at h
  | cons q rest ih =>
    by_cases hq : q.key = k
    · simp only [lruFind, if_pos hq, Option.some.injEq] at h
      exact h ▸ List.mem_cons_self q rest
    · simp only [lruFind, if_neg hq] at h
      exact List.mem_cons_of_mem q (ih h)

theorem lruFind_key {l : List Page} {k : PageKey} {p : Page}
    (h : lruFind l k = some p) : p.key = k := by
  induction l with
  | nil => simp [lruFind] at h
  | cons q rest ih =>
    by_cases hq : q.key = k
    · simp only [lruFind, if_pos hq, Option.some.injEq] at h
      exact h ▸ hq
    · simp only [lruFind, if_neg hq] at h
      exact ih h

theorem key_not_mem_erase {l : List Page} {k : PageKey}
    (hnd : KeysNodup l) : ∀ p ∈ lruErase l k, p.key ≠ k := by
  induction l with
  | nil => intro p hp; simp [lruErase] at hp
  | cons q rest ih =>
    simp only [KeysNodup, List.map_cons, List.nodup_cons] at hnd
    by_cases hq : q.key = k
    · intro p hp
      simp only [lruErase, if_pos hq] at hp
      intro hpk
      exact hnd.1 (hq ▸ hpk ▸ List.mem_map_of_mem Page.key hp)
    · intro p hp
      simp only [lruErase, if_neg hq] at hp
      rcases List.mem_cons.mp hp with h | h
      · exact h ▸ hq
      · exact ih hnd.2 p h

theorem keysNodup_touch {l : List Page} {k : PageKey} {p : Page}
    (hnd : KeysNodup l) (hf : lruFind l k = some p) :
    KeysNodup (p :: lruErase l k) := by
  induction l with
  | nil => simp [lruFind] at hf
  | cons q rest ih =>
    simp only [KeysNodup, List.map_cons, List.nodup_cons] at hnd
    by_cases hq : q.key = k
    · simp only [lruFind, if_pos hq, Option.some.injEq] at hf
      simp only [lruErase, if_pos hq, KeysNodup, List.map_cons, List.nodup_cons]
      exact ⟨hf ▸ hnd.1, hnd.2⟩
    · simp only [lruFind, if_neg hq] at hf
      simp only [lruErase, if_neg hq]
      have hrec := ih hnd.2 hf
      simp only [KeysNodup, List.map_cons, List.nodup_cons] at hrec ⊢
      have hpk : p.key = k := lruFind_key hf
      constructor
      · intro hmem
        rcases List.mem_cons.mp hmem with h | h
        · exact hq (hpk ▸ h.symm)
        · exact hrec.1 h
      · constructor
        · intro hmem
          have : q.key ∈ (rest.map Page.key) :=
            (List.map_subset Page.key ((lruErase_sublist rest k).subset)) hmem
          exact hnd.1 this
        · exact hrec.2

theorem keysNodup_sublist {l l' : List Page} (hs : List.Sublist l' l)
    (hnd : KeysNodup l) : KeysNodup l' :=
  List.Nodup.sublist (List.Sublist.map Page.key hs) hnd

/-! ## Eviction lemmas -/

theorem evictLoop_lru (d : Nat) : ∀ (lru orph : List Page), d ≤ lru.length →
    (evictLoop d lru orph).1 = lru.take (lru.length - d) := by
  induction d with
  | zero =>
    intro lru orph _
    simp [evictLoop, List.take_length]
  | succ d ih =>
    intro lru orph hd
    have hne : lru ≠ [] := by
      intro h
      rw [h] at hd
      simp at hd
    obtain ⟨back, hback⟩ : ∃ b, lru.getLast? = some b := by
      cases h : lru.getLast? with
      | none => exact absurd (List.getLast?_eq_none_iff.mp h) hne
      | some b => exact ⟨b, rfl⟩
    have hlen : lru.dropLast.length = lru.length - 1 := List.length_dropLast lru
    have hd' : d ≤ lru.dropLast.length := by omega
    have htake : lru.dropLast.take (lru.dropLast.length - d) = lru.take (lru.length - (d + 1)) := by
      rw [hlen, List.dropLast_eq_take, List.take_take]
      congr 1
      omega
    simp only [evictLoop, hback]
    by_cases hdirty : back.is_dirty
    · rw [if_pos hdirty, ih _ _ hd', htake]
    · rw [if_neg hdirty, ih _ _ hd', htake]

theorem admitEvict_keeps_front (front rest orph : List Page) (M : Nat)
    (h : front.length ≤ M) :
    ∃ m, (admitEvict (front ++ rest) orph M).1 = front ++ rest.take m := by
  unfold admitEvict
  by_cases hlen : (front ++ rest).length > M
  · rw [if_pos hlen]
    have hd : (front ++ rest).length - M ≤ (front ++ rest).length := Nat.sub_le _ _
    rw [evictLoop_lru _ _ _ hd]
    refine ⟨M - front.length, ?_⟩
    have hM : (front ++ rest).length - ((front ++ rest).length - M) = M := by
      simp only [List.length_append] at *
      omega
    rw [hM, List.take_append_eq_append_take, List.take_of_length_le h]
  · rw [if_neg hlen]
    exact ⟨rest.length, by rw [List.take_length]⟩

theorem evictLoop_orphansDirty (d : Nat) : ∀ (lru orph : List Page),
    (∀ p ∈ orph, p.is_dirty = true) →
    ∀ p ∈ (evictLoop d lru orph).2, p.is_dirty = true := by
  induction d with
  | zero => intro lru orph h; exact h
  | succ d ih =>
    intro lru orph h
    cases hback : lru.getLast? with
    | none => simp only [evictLoop, hback]; exact h
    | some back =>
      simp only [evictLoop, hback]
      by_cases hdirty : back.is_dirty
      · rw [if_pos hdirty]
        refine ih _ _ ?_
        intro p hp
        rcases List.mem_append.mp hp with h1 | h1
        · exact h p h1
        · rcases List.mem_singleton.mp h1 with rfl
          exact hdirty
      · rw [if_neg hdirty]
        exact ih _ _ h

theorem admitEvict_orphansDirty (lru orph : List Page) (M : Nat)
    (h : ∀ p ∈ orph, p.is_dirty = true) :
    ∀ p ∈ (admitEvict lru orph M).2, p.is_dirty = true := by
  unfold admitEvict
  by_cases hlen : lru.length > M
  · rw [if_pos hlen]
    exact evictLoop_orphansDirty _ _ _ h
  · rw [if_neg hlen]
    exact h

/-! ## Chunk-decomposition lemmas -/

theorem chunkInv_entry (P : Nat) (hP : 0 < P) :
    ∀ rem cap : Nat, 0 < rem → 0 < cap → cap ≤ P →
    chunkInv ((P - cap + rem - 1) / P + 1) rem cap P := by
  intro rem
  induction rem using Nat.strong_induction_on with
  | _ rem ih =>
    intro cap hrem hcap hcapP
    by_cases hle : rem ≤ cap
    · have hnum : P - cap + rem - 1 < P := by omega
      rw [Nat.div_eq_of_lt hnum]
      exact ⟨hrem, hle⟩
    · push_neg at hle
      have hnum : P - cap + rem - 1 = (rem - cap - 1) + P := by omega
      rw [hnum, Nat.add_div_right _ hP]
      have hrec := ih (rem - cap) (by omega) P (by omega) hP (le_refl P)
      have heq : (P - P + (rem - cap) - 1) / P + 1 = (rem - cap - 1) / P + 1 := by
        congr 2
        omega
      rw [heq] at hrec
      show cap < rem ∧ chunkInv ((rem - cap - 1) / P + 1) (rem - cap) P P
      exact ⟨hle, hrec⟩

theorem span_count_eq (off len P : Nat) (hP : 0 < P) (hlen : 0 < len) :
    (off + len - 1) / P + 1 - off / P = (P - (P - off % P) + len - 1) / P + 1 := by
  have hdm := Nat.div_add_mod off P
  have hmod : off % P < P := Nat.mod_lt off hP
  have h1 : off + len - 1 = P * (off / P) + (off % P + len - 1) := by omega
  rw [h1, Nat.mul_add_div hP]
  have h2 : P - (P - off % P) = off % P := by omega
  rw [h2]
  generalize (off % P + len - 1) / P = y
  generalize off / P = x
  omega

theorem frontDesc_keys (id : Nat) (src : List Byte) (P : Nat) :
    ∀ (k j t cap : Nat) (fn : List Page), FrontDesc id src P k j t cap fn →
    ∀ p ∈ fn, ∃ i, j ≤ i ∧ i < j + k ∧ p.key = ⟨id, i⟩ := by
  intro k
  induction k with
  | zero =>
    intro j t cap fn hfd p hp
    rw [hfd.1] at hp
    simp at hp
  | succ k ih =>
    intro j t cap fn hfd p hp
    obtain ⟨w, p0, fn', hw, hfn, hkey, _, _, _, _, hrec⟩ := hfd
    rw [hfn] at hp
    rcases List.mem_append.mp hp with h | h
    · obtain ⟨i, hi1, hi2, hi3⟩ := ih (j + 1) (t + w) P fn' hrec p h
      exact ⟨i, by omega, by omega, hi3⟩
    · rcases List.mem_singleton.mp h with rfl
      exact ⟨j, le_refl j, by omega, hkey⟩

theorem writeLoop_spec (id : Nat) (src : List Byte) (off P M start : Nat)
    (hP : 0 < P) (hP28 : P < 2 ^ 28) :
    ∀ (k j t cap : Nat) (c : Cache) (front rest : List Page),
      c.page_size = P → c.max_pages = M → c.queue = [] →
      c.lru = front ++ rest →
      KeysNodup c.lru →
      (∀ p ∈ c.lru, p.data.length = P) →
      chunkInv k (src.length - t) cap P →
      t ≤ src.length →
      cap = (if j = start then P - off % P else P) →
      start ≤ j →
      front.length + k ≤ M →
      (∀ p ∈ front, ∀ i, j ≤ i → p.key ≠ ⟨id, i⟩) →
      ∃ c' fn rest2,
        Cache.writeLoop id src off start (List.range' j k) c t = .ok c' src.length ∧
        c'.page_size = P ∧ c'.max_pages = M ∧ c'.queue = [] ∧
        c'.lru = fn ++ front ++ rest2 ∧
        KeysNodup c'.lru ∧
        (∀ p ∈ c'.lru, p.data.length = P) ∧
        FrontDesc id src P k j t cap fn := by
  intro k
  induction k with
  | zero =>
    intro j t cap c front rest hps hmp hq hlru hnd hdl hchunk ht hcap hj hfM hfront
    have hrem : src.length - t = 0 := hchunk
    have ht' : t = src.length := by omega
    refine ⟨c, [], rest, ?_, hps, hmp, hq, by simpa using hlru, hnd, hdl, rfl, ht'⟩
    rw [ht']
    rfl
  | succ k ih =>
    intro j t cap c front rest hps hmp hq hlru hnd hdl hchunk ht hcap hj hfM hfront
    have hmod : off % P < P := Nat.mod_lt off hP
    have hfrontkey : ∀ p ∈ front, p.key ≠ ⟨id, j⟩ := fun p hp => hfront p hp j (le_refl j)
    have hfind_eq : lruFind c.lru ⟨id, j⟩ = lruFind rest ⟨id, j⟩ := by
      rw [hlru]
      exact lruFind_append_none rest _ hfrontkey
    -- the page that gets written: found or fresh
    obtain ⟨pg, hpg_find, hpg_key, hpg_dl⟩ :
        ∃ pg, findOrFresh c.lru ⟨id, j⟩ P = pg ∧ pg.key = ⟨id, j⟩ ∧ pg.data.length = P := by
      unfold findOrFresh
      cases hfr : lruFind rest (⟨id, j⟩ : PageKey) with
      | some p =>
        rw [hfind_eq, hfr]
        exact ⟨p, rfl, lruFind_key hfr,
          hdl p (by rw [hlru]; exact List.mem_append_right front (lruFind_mem hfr))⟩
      | none =>
        rw [hfind_eq, hfr]
        exact ⟨_, rfl, rfl, by simp⟩
    have herase : lruErase c.lru ⟨id, j⟩ = front ++ lruErase rest ⟨id, j⟩ := by
      rw [hlru]
      exact lruErase_append rest _ hfrontkey
    -- reduce the goal one loop step
    rw [List.range'_succ]
    simp only [Cache.writeLoop]
    rw [if_neg (by simp [hq]), hps, hmp, hpg_find, herase]
    -- normalize local offset and capacity
    have hcapP : cap ≤ P := by
      rw [hcap]
      by_cases hjs : j = start
      · rw [if_pos hjs]; omega
      · rw [if_neg hjs]
    have hlo_eq : (if j = start then off % P else 0) = P - cap := by
      by_cases hjs : j = start
      · rw [if_pos hjs, hcap, if_pos hjs]; omega
      · rw [if_neg hjs, hcap, if_neg hjs]; omega
    have hPlo : P - (if j = start then off % P else 0) = cap := by
      rw [hlo_eq]; omega
    rw [hPlo, hlo_eq]
    set w := min cap (src.length - t) with hwdef
    set slice := List.take w (List.drop t src) with hslicedef
    set pg2 := (pg.write slice (P - cap)).1.set_dirty true with hpg2def
    have hwle : w ≤ src.length - t := Nat.min_le_right _ _
    have hwcap : w ≤ cap := Nat.min_le_left _ _
    have hslice_len : slice.length = w := by
      rw [hslicedef, List.length_take, List.length_drop]
      exact Nat.min_eq_left (by omega)
    have hlow : (P - cap) + slice.length ≤ P := by rw [hslice_len]; omega
    have hlow28 : (P - cap) + slice.length < 2 ^ 28 := by omega
    have hpg2_key : pg2.key = (⟨id, j⟩ : PageKey) := by
      rw [hpg2def, Page.write_set_dirty_key, hpg_key]
    have hpg2_dl : pg2.data.length = P := by
      rw [hpg2def, Page.write_set_dirty_data,
        Page.write_data_length _ _ _ (by rw [hpg_dl]; exact hlow)]
      exact hpg_dl
    have hpg2_size : pg2.size = (P - cap) + w := by
      rw [hpg2def, Page.write_set_dirty_size _ _ _ hlow28, hslice_len]
    have hpg2_dirty : pg2.is_dirty = true := Page.set_dirty_true_is_dirty _
    have hpg2_rb : (pg2.data.drop (P - cap)).take w = slice := by
      have h1 : (pg2.data.drop (P - cap)).take slice.length = slice := by
        rw [hpg2def, Page.write_set_dirty_data]
        exact Page.write_readback _ _ _ (by rw [hpg_dl]; exact hlow)
      rw [hslice_len] at h1
      exact h1
    -- eviction keeps the front segment
    have hconsapp : pg2 :: (front ++ lruErase rest ⟨id, j⟩)
        = (pg2 :: front) ++ lruErase rest ⟨id, j⟩ := rfl
    rw [hconsapp]
    obtain ⟨m, hadv⟩ := admitEvict_keeps_front (pg2 :: front) (lruErase rest ⟨id, j⟩)
      c.orphaned M (by simp only [List.length_cons]; omega)
    set ev := admitEvict ((pg2 :: front) ++ lruErase rest ⟨id, j⟩) c.orphaned M with hevdef
    set c1 : Cache :=
      { lru := ev.1, queue := c.queue, orphaned := ev.2, page_size := P, max_pages := M }
      with hc1def
    set rest2 := (lruErase rest ⟨id, j⟩).take m with hrest2def
    -- structural invariants of the new state
    have hnd0 : KeysNodup (front ++ rest) := hlru ▸ hnd
    have hnd_rest : KeysNodup rest := keysNodup_sublist (List.sublist_append_right front rest) hnd0
    have hrest2_rest : List.Sublist rest2 rest :=
      (List.take_sublist m _).trans (lruErase_sublist rest _)
    have hfr2_sub : List.Sublist (front ++ rest2) (front ++ rest) :=
      List.Sublist.append_left hrest2_rest front
    have hnd_fr2 : KeysNodup (front ++ rest2) := keysNodup_sublist hfr2_sub hnd0
    have hkey_notin : (⟨id, j⟩ : PageKey) ∉ (front ++ rest2).map Page.key := by
      intro hmem
      obtain ⟨p, hp, hpk⟩ := List.mem_map.mp hmem
      rcases List.mem_append.mp hp with h | h
      · exact hfrontkey p h hpk
      · exact key_not_mem_erase hnd_rest p ((List.take_sublist m _).subset h) hpk
    have hnd1 : KeysNodup ((pg2 :: front) ++ rest2) := by
      simp only [KeysNodup, List.cons_append, List.map_cons, List.nodup_cons]
      refine ⟨?_, hnd_fr2⟩
      rw [hpg2_key]
      simpa using hkey_notin
    have hdl1 : ∀ p ∈ (pg2 :: front) ++ rest2, p.data.length = P := by
      intro p hp
      rcases List.mem_append.mp hp with h | h
      · rcases List.mem_cons.mp h with rfl | h2
        · exact hpg2_dl
        · exact hdl p (by rw [hlru]; exact List.mem_append_left rest h2)
      · exact hdl p (by rw [hlru]; exact List.mem_append_right front (hrest2_rest.subset h))
    have hchunk' : chunkInv k (src.length - (t + w)) P P := by
      cases k with
      | zero =>
        obtain ⟨h1, h2⟩ := hchunk
        have hwe : w = src.length - t := by rw [hwdef]; exact Nat.min_eq_right h2
        show src.length - (t + w) = 0
        omega
      | succ k2 =>
        obtain ⟨h1, h2⟩ := hchunk
        have hwe : w = cap := by rw [hwdef]; exact Nat.min_eq_left (le_of_lt h1)
        have heq : src.length - (t + w) = (src.length - t) - cap := by omega
        rw [heq]
        exact h2
    have ht2 : t + w ≤ src.length := by omega
    obtain ⟨c', fn', rest3, hrec, hps', hmp', hq', hlru', hnd', hdl', hfd'⟩ :=
      ih (j + 1) (t + w) P c1 (pg2 :: front) rest2 rfl rfl hq hadv
        (by show KeysNodup ev.1; rw [hadv]; exact hnd1)
        (by show ∀ p ∈ ev.1, p.data.length = P; rw [hadv]; exact hdl1)
        hchunk' ht2 (if_neg (by omega)).symm (by omega)
        (by simp only [List.length_cons]; omega)
        (by
          intro p hp i hi
          rcases List.mem_cons.mp hp with rfl | h2
          · rw [hpg2_key]
            intro hco
            have : j = i := congrArg PageKey.index hco
            omega
          · exact hfront p h2 i (by omega))
    refine ⟨c', fn' ++ [pg2], rest3, hrec, hps', hmp', hq', ?_, hnd', hdl', ?_⟩
    · rw [hlru']
      simp [List.append_assoc]
    · exact ⟨w, pg2, fn', hwdef, rfl, hpg2_key, hpg2_dl, hpg2_size, hpg2_dirty,
        by rw [hpg2_rb], hfd'⟩

theorem spanSpecFind_congr (id : Nat) (src : List Byte) (P : Nat) :
    ∀ (k j t cap : Nat) (c c2 : Cache),
      (∀ i, j ≤ i → lruFind c2.lru ⟨id, i⟩ = lruFind c.lru ⟨id, i⟩) →
      SpanSpecFind id src P c k j t cap → SpanSpecFind id src P c2 k j t cap := by
  intro k
  induction k with
  | zero => intro j t cap c c2 _ h; exact h
  | succ k ih =>
    intro j t cap c c2 hfind h
    obtain ⟨w, p, hw, hf, hdl, hsz, hrb, hrec⟩ := h
    exact ⟨w, p, hw, by rw [hfind j (le_refl j)]; exact hf, hdl, hsz, hrb,
      ih (j + 1) (t + w) P c c2 (fun i hi => hfind i (by omega)) hrec⟩

theorem frontDesc_to_spanSpec (id : Nat) (src : List Byte) (P : Nat) :
    ∀ (k j t cap : Nat) (fn rst : List Page) (c : Cache),
      c.lru = fn ++ rst →
      FrontDesc id src P k j t cap fn →
      SpanSpecFind id src P c k j t cap := by
  intro k
  induction k with
  | zero =>
    intro j t cap fn rst c hlru hfd
    exact hfd.2
  | succ k ih =>
    intro j t cap fn rst c hlru hfd
    obtain ⟨w, p, fn', hw, hfn, hkey, hdl, hsz, _, hrb, hrec⟩ := hfd
    have hkeys' : ∀ q ∈ fn', ∃ i, j + 1 ≤ i ∧ i < j + 1 + k ∧ q.key = ⟨id, i⟩ :=
      frontDesc_keys id src P k (j + 1) (t + w) P fn' hrec
    have hfind : lruFind c.lru ⟨id, j⟩ = some p := by
      rw [hlru, hfn, List.append_assoc]
      rw [lruFind_append_none _ _ (fun q hq => ?_)]
      · show lruFind (p :: rst) ⟨id, j⟩ = some p
        simp [lruFind, hkey]
      · obtain ⟨i, hi1, _, hqk⟩ := hkeys' q hq
        rw [hqk]
        intro hco
        have : i = j := congrArg PageKey.index hco
        omega
    refine ⟨w, p, hw, hfind, hdl, hsz, hrb, ?_⟩
    exact ih (j + 1) (t + w) P fn' (p :: rst) c (by rw [hlru, hfn]; simp) hrec

theorem readLoop_spec (on_miss : OnMiss) (id : Nat) (src : List Byte) (off P start : Nat)
    (hP : 0 < P) :
    ∀ (k j t cap : Nat) (c : Cache) (acc : List Byte),
      c.page_size = P → c.queue = [] → KeysNodup c.lru →
      SpanSpecFind id src P c k j t cap →
      t ≤ src.length →
      cap = (if j = start then P - off % P else P) →
      start ≤ j →
      acc = src.take t →
      ∃ c', Cache.readLoop on_miss id src.length off start (List.range' j k) c t acc
        = .ok c' (src.length, src) := by
  intro k
  induction k with
  | zero =>
    intro j t cap c acc hps hq hnd hssf ht hcap hj hacc
    have ht' : t = src.length := hssf
    refine ⟨c, ?_⟩
    show CResult.ok c (t, acc) = CResult.ok c (src.length, src)
    rw [ht', hacc, ht', List.take_length]
  | succ k ih =>
    intro j t cap c acc hps hq hnd hssf ht hcap hj hacc
    have hmod : off % P < P := Nat.mod_lt off hP
    obtain ⟨w, p, hw, hfind, hdl, hsz, hrb, hrec⟩ := hssf
    have hcapP : cap ≤ P := by
      rw [hcap]
      by_cases hjs : j = start
      · rw [if_pos hjs]; omega
      · rw [if_neg hjs]
    have hwle : w ≤ src.length - t := hw ▸ Nat.min_le_right _ _
    have hwcap : w ≤ cap := hw ▸ Nat.min_le_left _ _
    have hpkey : p.key = (⟨id, j⟩ : PageKey) := lruFind_key hfind
    -- reduce one loop step
    rw [List.range'_succ]
    simp only [Cache.readLoop]
    rw [if_neg (by simp [hq]), hps, hfind]
    dsimp only
    have hlo_eq : (if j = start then off % P else 0) = P - cap := by
      by_cases hjs : j = start
      · rw [if_pos hjs, hcap, if_pos hjs]; omega
      · rw [if_neg hjs, hcap, if_neg hjs]; omega
    rw [hlo_eq]
    -- the page read
    have hread : p.read (src.length - t) (P - cap)
        = ((src.drop t).take w, w) := by
      have hle : (P - cap) ≤ p.size := by rw [hsz]; omega
      rw [Page.read_spec p _ _ hle, hsz]
      have hcnt : min ((P - cap) + w - (P - cap)) (src.length - t) = w := by
        have : (P - cap) + w - (P - cap) = w := by omega
        rw [this]
        exact Nat.min_eq_left hwle
      rw [hcnt, hrb]
    rw [hread]
    dsimp only
    -- recurse
    have hacc' : acc ++ (src.drop t).take w = src.take (t + w) := by
      rw [hacc, List.take_add]
    have hfind_pres : ∀ i, j + 1 ≤ i →
        lruFind (p :: lruErase c.lru ⟨id, j⟩) ⟨id, i⟩ = lruFind c.lru ⟨id, i⟩ := by
      intro i hi
      have hne : (⟨id, i⟩ : PageKey) ≠ ⟨id, j⟩ := by
        intro hco
        have : i = j := congrArg PageKey.index hco
        omega
      show (if p.key = ⟨id, i⟩ then some p else lruFind (lruErase c.lru ⟨id, j⟩) ⟨id, i⟩)
        = lruFind c.lru ⟨id, i⟩
      rw [if_neg (by rw [hpkey]; exact fun h => hne h.symm)]
      exact lruFind_erase_ne _ _ hne
    obtain ⟨c', hrec_eq⟩ :=
      ih (j + 1) (t + w) P
        { lru := p :: lruErase c.lru ⟨id, j⟩, queue := c.queue, orphaned := c.orphaned,
          page_size := P, max_pages := c.max_pages } (src.take (t + w))
        rfl hq (keysNodup_touch hnd hfind)
        (spanSpecFind_congr id src P k (j + 1) (t + w) P c _ hfind_pres hrec)
        (by omega) (if_neg (by omega)).symm (by omega) rfl
    rw [hacc']
    exact ⟨c', hrec_eq⟩

/-- C8 amended: read-after-write holds provided the pages spanned by the
write fit within `max_pages` (so the write's own eviction does not remove
them) and the state is well-formed (empty in-flight queue, pairwise-distinct
resident keys, buffers of the configured size, `0 < P < 2^28`,
`off + |src| ≤ 2^64`): `write(id, src, off)` succeeds returning `|src|`, and
a following `read(id, dst, off, on_miss)` with `|dst| = |src|` succeeds for
EVERY `on_miss`, returning exactly the bytes of `src` — in particular
`on_miss` is never consulted for any page of the span. -/
theorem c8_read_after_write_spec (c : Cache) (id off : Nat) (src : List Byte)
    (hq : c.queue = [])
    (hnd : KeysNodup c.lru)
    (hdl : ∀ p ∈ c.lru, p.data.length = c.page_size)
    (hP : 0 < c.page_size)
    (hP28 : c.page_size < 2 ^ 28)
    (hsrc : 0 < src.length)
    (hwrap : off + src.length ≤ U64)
    (hspan : (off + src.length - 1) / c.page_size + 1
      ≤ c.max_pages + off / c.page_size) :
    ∃ c1, Cache.write c id src off = .ok c1 src.length ∧
      ∀ on_miss : OnMiss, ∃ c2,
        Cache.read c1 id src.length off on_miss = .ok c2 (src.length, src) := by
  have hmod : off % c.page_size < c.page_size := Nat.mod_lt off hP
  have hsub : sub64 (off + src.length) 1 = off + src.length - 1 :=
    sub64_one (by omega) hwrap
  have hk : (off + src.length - 1) / c.page_size + 1 - off / c.page_size
      = (c.page_size - (c.page_size - off % c.page_size) + src.length - 1) / c.page_size + 1 :=
    span_count_eq off src.length c.page_size hP hsrc
  have hchunk0 : chunkInv ((off + src.length - 1) / c.page_size + 1 - off / c.page_size)
      src.length (c.page_size - off % c.page_size) c.page_size := by
    rw [hk]
    exact chunkInv_entry c.page_size hP src.length _ hsrc (by omega) (by omega)
  obtain ⟨c1, fn, rest2, heq, hps1, hmp1, hq1, hlru1, hnd1, hdl1, hfd1⟩ :=
    writeLoop_spec id src off c.page_size c.max_pages (off / c.page_size) hP hP28
      ((off + src.length - 1) / c.page_size + 1 - off / c.page_size)
      (off / c.page_size) 0 (c.page_size - off % c.page_size) c [] c.lru
      rfl rfl hq (List.nil_append c.lru).symm hnd hdl
      (by rw [Nat.sub_zero]; exact hchunk0)
      (Nat.zero_le _) (if_pos rfl).symm (le_refl _)
      (by simp only [List.length_nil, Nat.zero_add]; omega)
      (by intro p hp; simp at hp)
  refine ⟨c1, ?_, ?_⟩
  · show Cache.writeLoop id src off (pageSpanStart off c.page_size)
      (indexRange (pageSpanStart off c.page_size) (pageSpanLast off src.length c.page_size))
      c 0 = .ok c1 src.length
    simp only [pageSpanStart, pageSpanLast, indexRange]
    rw [hsub]
    exact heq
  · intro on_miss
    have hssf : SpanSpecFind id src c.page_size c1
        ((off + src.length - 1) / c.page_size + 1 - off / c.page_size)
        (off / c.page_size) 0 (c.page_size - off % c.page_size) := by
      refine frontDesc_to_spanSpec id src c.page_size _ _ _ _ fn ([] ++ rest2) c1 ?_ hfd1
      rw [hlru1, List.append_assoc]
    obtain ⟨c2, heq2⟩ :=
      readLoop_spec on_miss id src off c.page_size (off / c.page_size) hP
        ((off + src.length - 1) / c.page_size + 1 - off / c.page_size)
        (off / c.page_size) 0 (c.page_size - off % c.page_size) c1 []
        hps1 hq1 hnd1 hssf (Nat.zero_le _) (if_pos rfl).symm (le_refl _) (by simp)
    refine ⟨c2, ?_⟩
    show Cache.readLoop on_miss id src.length off (pageSpanStart off c1.page_size)
      (indexRange (pageSpanStart off c1.page_size) (pageSpanLast off src.length c1.page_size))
      c1 0 [] = .ok c2 (src.length, src)
    simp only [pageSpanStart, pageSpanLast, indexRange, hps1]
    rw [hsub]
    exact heq2

theorem writeLoop_orphansDirty (id : Nat) (inp : List Byte) (off start : Nat) :
    ∀ (idxs : List Nat) (c : Cache) (total : Nat), OrphansDirty c →
      ResultOrphansDirty (Cache.writeLoop id inp off start idxs c total) := by
  intro idxs
  induction idxs with
  | nil => intro c total h; exact h
  | cons index rest ih =>
    intro c total h
    simp only [Cache.writeLoop]
    by_cases hmem : (⟨id, index⟩ : PageKey) ∈ c.queue
    · rw [if_pos hmem]; trivial
    · rw [if_neg hmem]
      apply ih
      intro p hp
      exact admitEvict_orphansDirty _ _ _ h p hp

theorem readLoop_orphansDirty (on_miss : OnMiss) (id : Nat) (outLen off start : Nat) :
    ∀ (idxs : List Nat) (c : Cache) (total : Nat) (acc : List Byte), OrphansDirty c →
      ResultOrphansDirty (Cache.readLoop on_miss id outLen off start idxs c total acc) := by
  intro idxs
  induction idxs with
  | nil => intro c total acc h; exact h
  | cons index rest ih =>
    intro c total acc h
    simp only [Cache.readLoop]
    by_cases hmem : (⟨id, index⟩ : PageKey) ∈ c.queue
    · rw [if_pos hmem]; trivial
    · rw [if_neg hmem]
      cases hfind : lruFind c.lru ⟨id, index⟩ with
      | some page => exact ih _ _ _ h
      | none =>
        dsimp only
        cases hcall : on_miss (index * c.page_size) with
        | error e => exact h
        | ok lenBuf =>
          dsimp only
          cases hfind2 : lruFind
              (admitEvict (⟨⟨id, index⟩, lenBuf.2, lenBuf.1 % U32⟩ :: c.lru)
                c.orphaned c.max_pages).1 ⟨id, index⟩ with
          | none => trivial
          | some page =>
            dsimp only
            apply ih
            intro p hp
            exact admitEvict_orphansDirty _ _ _ h p hp

theorem flushLoop_orphansDirty (on_flush : OnFlush) (id : Nat) :
    ∀ (idxs : List Nat) (c : Cache), OrphansDirty c →
      ResultOrphansDirty (Cache.flushLoop on_flush id idxs c) := by
  intro idxs
  induction idxs with
  | nil => intro c h; exact h
  | cons index rest ih =>
    intro c h
    simp only [Cache.flushLoop]
    by_cases hmem : (⟨id, index⟩ : PageKey) ∈ c.queue
    · rw [if_pos hmem]; trivial
    · rw [if_neg hmem]
      cases hfind : lruFind c.lru ⟨id, index⟩ with
      | none => exact ih _ h
      | some page =>
        dsimp only
        by_cases hdirty : page.is_dirty
        · rw [if_pos hdirty]
          cases hcall : on_flush (page.read c.page_size 0).1 (index * c.page_size) with
          | error e => exact h
          | ok n => exact ih _ h
        · rw [if_neg hdirty]
          exact ih _ h

/-! ## Claim theorems -/

/-- C1: the claim says a failed `on_flush` leaves the page's dirty flag set.
Evaluating `Cache::flush` on a cache holding one resident dirty page
(key `(1,0)`, bytes `[7,7,7,7]`, `m_size = 4 ||| dirty_bit = 268435460`)
with an `on_flush` that always fails shows the code clears the dirty flag
(`m_size` drops to `4`) before awaiting `on_flush` and returns the error
without restoring it: the dirty data would never be flushed again. -/
theorem c1_flush_error_dirty_flag_lost :
    Cache.flush (Cache.mk [⟨⟨1, 0⟩, [7, 7, 7, 7], 268435460⟩] [] [] 4 8) 1 4
        (fun _ _ => .error 5)
      = .err (Cache.mk [⟨⟨1, 0⟩, [7, 7, 7, 7], 4⟩] [] [] 4 8) 5
    ∧ (Page.mk ⟨1, 0⟩ [7, 7, 7, 7] 268435460).is_dirty = true
    ∧ (Page.mk ⟨1, 0⟩ [7, 7, 7, 7] 4).is_dirty = false := by
  refine ⟨?_, by decide, by decide⟩
  decide

/-- C3 counterexample: a page with length 3 written with one byte at offset 0
ends with length 1, not `max 3 1 = 3` — `Page::write` sets
`length := offset + |src|` unconditionally, shrinking the page. -/
theorem c3_page_write_length_cex :
    ((Page.mk ⟨1, 0⟩ [7, 7, 7, 7] 3).write [9] 0).1.size = 1
    ∧ ((1 : Nat) ≠ max 3 (0 + 1)) := by decide

/-- C3 amended: `Page.write src off` (with `off + |src|` within the buffer
and below the dirty bit) copies all of `src` into the buffer at `off`,
returns `|src|`, sets the length to exactly `off + |src|` (not the max with
the old length), and leaves the dirty flag unchanged. -/
theorem c3_page_write_spec (p : Page) (src : List Byte) (off : Nat)
    (hbuf : off + src.length ≤ p.data.length)
    (hbit : off + src.length < 2 ^ 28) :
    (p.write src off).2 = src.length
    ∧ (p.write src off).1.data
        = p.data.take off ++ src ++ p.data.drop (off + src.length)
    ∧ ((p.write src off).1.data.drop off).take src.length = src
    ∧ (p.write src off).1.size = off + src.length
    ∧ (p.write src off).1.is_dirty = p.is_dirty :=
  ⟨rfl, rfl, Page.write_readback p src off hbuf, Page.write_size p src off hbit,
    Page.write_is_dirty p src off hbit⟩

/-- C3 witness: the amended write specification evaluated at a concrete page. -/
theorem c3_page_write_spec_witness :
    ((0 : Nat) + [9].length ≤ ([7, 7, 7, 7] : List Byte).length)
    ∧ ((Page.mk ⟨1, 0⟩ [7, 7, 7, 7] 3).write [9] 0).1.size = 0 + [9].length
    ∧ ((Page.mk ⟨1, 0⟩ [7, 7, 7, 7] 3).write [9] 0).1.is_dirty
        = (Page.mk ⟨1, 0⟩ [7, 7, 7, 7] 3).is_dirty :=
  ⟨by decide,
    (c3_page_write_spec (Page.mk ⟨1, 0⟩ [7, 7, 7, 7] 3) [9] 0 (by decide) (by decide)).2.2.2.1,
    (c3_page_write_spec (Page.mk ⟨1, 0⟩ [7, 7, 7, 7] 3) [9] 0 (by decide) (by decide)).2.2.2.2⟩

/-- C4 counterexample: reading at offset 1 from a page of length 0 returns
count 1 (the unsigned subtraction `length - offset` wraps and the min picks
`|dst|`), not the claimed "no bytes". -/
theorem c4_page_read_past_length_cex :
    ((Page.mk ⟨1, 0⟩ [9, 9] 0).read 1 1).2 = 1 := by decide

/-- C4 amended: for `offset ≤ length`, `Page.read` copies exactly
`min(length - offset, |dst|)` bytes from the buffer at `offset` and returns
that count; for `offset > length` the unsigned subtraction wraps and the
call returns `min(2^64 - (offset - length), |dst|)` bytes (an out-of-bounds
read in C++), not zero. -/
theorem c4_page_read_spec (p : Page) (outLen offset : Nat) :
    (offset ≤ p.size →
      p.read outLen offset
        = ((p.data.drop offset).take (min (p.size - offset) outLen),
           min (p.size - offset) outLen))
    ∧ (p.size < offset → offset < U64 →
      (p.read outLen offset).2 = min (U64 - (offset - p.size)) outLen) :=
  ⟨fun h => Page.read_spec p outLen offset h,
   fun h hoff => Page.read_wrap_count p outLen offset h hoff⟩

/-- C4 witness: both branches of the amended read specification evaluated at
concrete pages. -/
theorem c4_page_read_spec_witness :
    ((1 : Nat) ≤ (Page.mk ⟨1, 0⟩ [5, 6, 7, 8] 3).size
      ∧ (Page.mk ⟨1, 0⟩ [5, 6, 7, 8] 3).read 2 1 = ([6, 7], 2))
    ∧ ((Page.mk ⟨1, 0⟩ [9, 9] 0).size < 1
      ∧ ((Page.mk ⟨1, 0⟩ [9, 9] 0).read 1 1).2 = min (U64 - 1) 1) := by
  constructor
  · refine ⟨by decide, ?_⟩
    have h := (c4_page_read_spec (Page.mk ⟨1, 0⟩ [5, 6, 7, 8] 3) 2 1).1 (by decide)
    rw [h]
    decide
  · refine ⟨by decide, ?_⟩
    have h := (c4_page_read_spec (Page.mk ⟨1, 0⟩ [9, 9] 0) 1 1).2 (by decide) (by decide)
    rw [h]
    decide

/-- C5 counterexample: from a fresh cache (`P = 4`, `M = 1`), three writes
(pages `(1,0)`, `(1,1)`, `(1,0)` again) reach a state whose orphan sink
holds an entry with key `(1,0)` while key `(1,0)` is simultaneously resident
in the LRU — re-residency never purges the sink, refuting "the sink never
contains an entry whose key is currently resident". -/
theorem c5_orphan_resident_duplicate_cex :
    Cache.write (Cache.new 4 1) 1 [1, 1, 1, 1] 0
      = .ok (Cache.mk [⟨⟨1, 0⟩, [1, 1, 1, 1], 268435460⟩] [] [] 4 1) 4
    ∧ Cache.write (Cache.mk [⟨⟨1, 0⟩, [1, 1, 1, 1], 268435460⟩] [] [] 4 1) 1 [2, 2, 2, 2] 4
      = .ok (Cache.mk [⟨⟨1, 1⟩, [2, 2, 2, 2], 268435460⟩] []
          [⟨⟨1, 0⟩, [1, 1, 1, 1], 268435460⟩] 4 1) 4
    ∧ Cache.write (Cache.mk [⟨⟨1, 1⟩, [2, 2, 2, 2], 268435460⟩] []
          [⟨⟨1, 0⟩, [1, 1, 1, 1], 268435460⟩] 4 1) 1 [3, 3, 3, 3] 0
      = .ok (Cache.mk [⟨⟨1, 0⟩, [3, 3, 3, 3], 268435460⟩] []
          [⟨⟨1, 0⟩, [1, 1, 1, 1], 268435460⟩, ⟨⟨1, 1⟩, [2, 2, 2, 2], 268435460⟩] 4 1) 4
    ∧ (lruFind [⟨⟨1, 0⟩, [3, 3, 3, 3], 268435460⟩] ⟨1, 0⟩).isSome = true
    ∧ (Page.mk ⟨1, 0⟩ [1, 1, 1, 1] 268435460).key = (⟨1, 0⟩ : PageKey) := by
  refine ⟨?_, ?_, ?_, by decide, by decide⟩ <;> decide

/-- C5 amended: the first half of the invariant holds: every page in the
orphan sink is dirty, and this is preserved by every cache operation
(`write`, `read`, `flush` — on success and on error — `invalidate`,
`set_page_size`, `set_max_pages`, and `get_orphan_pages`, whose drained
pages are all dirty). -/
theorem c5_orphans_dirty_invariant (c : Cache) (h : OrphansDirty c) :
    (∀ id inp off, ResultOrphansDirty (Cache.write c id inp off))
    ∧ (∀ on_miss id outLen off, ResultOrphansDirty (Cache.read c id outLen off on_miss))
    ∧ (∀ on_flush id size, ResultOrphansDirty (Cache.flush c id size on_flush))
    ∧ OrphansDirty c.invalidate
    ∧ (∀ n, OrphansDirty (c.set_page_size n))
    ∧ (∀ n, OrphansDirty (c.set_max_pages n))
    ∧ OrphansDirty (c.get_orphan_pages).2
    ∧ (∀ p ∈ (c.get_orphan_pages).1, p.is_dirty = true) := by
  refine ⟨?_, ?_, ?_, h, fun _ => h, fun _ => h, ?_, h⟩
  · intro id inp off
    exact writeLoop_orphansDirty id inp off _ _ c 0 h
  · intro on_miss id outLen off
    exact readLoop_orphansDirty on_miss id outLen off _ _ c 0 [] h
  · intro on_flush id size
    exact flushLoop_orphansDirty on_flush id _ c h
  · intro p hp
    simp [Cache.get_orphan_pages] at hp

/-- C5 witness: the dirty-sink invariant applied to a concrete cache whose
sink holds one dirty page, for a concrete write. -/
theorem c5_orphans_dirty_invariant_witness :
    OrphansDirty (Cache.mk [] [] [⟨⟨1, 0⟩, [1, 1, 1, 1], 268435460⟩] 4 2)
    ∧ ResultOrphansDirty
        (Cache.write (Cache.mk [] [] [⟨⟨1, 0⟩, [1, 1, 1, 1], 268435460⟩] 4 2) 1 [9] 0) :=
  ⟨fun p hp => by rcases List.mem_singleton.mp hp with rfl; decide,
    (c5_orphans_dirty_invariant _
      (fun p hp => by rcases List.mem_singleton.mp hp with rfl; decide)).1 1 [9] 0⟩

/-- C6 counterexample: from a fresh cache (`P = 4`, `M = 1`), two writes
evict a dirty page into the sink; `set_page_size` then leaves the sink (and
so `has_orphan_pages`) untouched — the code clears only `m_table` and
`m_lru`, not the OrphanSink (nor the InFlightMap). -/
theorem c6_set_page_size_keeps_orphans_cex :
    Cache.write (Cache.new 4 1) 1 [1, 1, 1, 1] 0
      = .ok (Cache.mk [⟨⟨1, 0⟩, [1, 1, 1, 1], 268435460⟩] [] [] 4 1) 4
    ∧ Cache.write (Cache.mk [⟨⟨1, 0⟩, [1, 1, 1, 1], 268435460⟩] [] [] 4 1) 1 [2, 2, 2, 2] 4
      = .ok (Cache.mk [⟨⟨1, 1⟩, [2, 2, 2, 2], 268435460⟩] []
          [⟨⟨1, 0⟩, [1, 1, 1, 1], 268435460⟩] 4 1) 4
    ∧ ((Cache.mk [⟨⟨1, 1⟩, [2, 2, 2, 2], 268435460⟩] []
          [⟨⟨1, 0⟩, [1, 1, 1, 1], 268435460⟩] 4 1).set_page_size 8).orphaned
      = [⟨⟨1, 0⟩, [1, 1, 1, 1], 268435460⟩]
    ∧ Cache.has_orphan_pages
        ((Cache.mk [⟨⟨1, 1⟩, [2, 2, 2, 2], 268435460⟩] []
          [⟨⟨1, 0⟩, [1, 1, 1, 1], 268435460⟩] 4 1).set_page_size 8) = true := by
  refine ⟨?_, ?_, by decide, by decide⟩ <;> decide

/-- C6 amended: `set_page_size(n)` stores `n` verbatim and clears the LRU
(with its lookup table) only; the in-flight queue and the orphan sink are
left untouched.  `set_max_pages(n)` behaves the same way. -/
theorem c6_reconfig_spec (c : Cache) (n : Nat) :
    (c.set_page_size n).page_size = n
    ∧ (c.set_page_size n).lru = []
    ∧ (c.set_page_size n).queue = c.queue
    ∧ (c.set_page_size n).orphaned = c.orphaned
    ∧ (c.set_max_pages n).max_pages = n
    ∧ (c.set_max_pages n).lru = []
    ∧ (c.set_max_pages n).queue = c.queue
    ∧ (c.set_max_pages n).orphaned = c.orphaned :=
  ⟨rfl, rfl, rfl, rfl, rfl, rfl, rfl, rfl⟩

/-- C7 counterexample: `set_page_size 3` stores 3, which is not a power of
two — only the constructor applies `std::bit_ceil`. -/
theorem c7_set_page_size_not_power_cex :
    ((Cache.new 64 4).set_page_size 3).page_size = 3 ∧ ¬PowerOfTwo 3 := by
  refine ⟨rfl, ?_⟩
  rintro ⟨k, hk⟩
  rcases k with _ | _ | k
  · simp at hk
  · simp at hk
  · have h4 : 4 ≤ 2 ^ (k + 2) := by
      have h := Nat.pow_le_pow_right (show 0 < 2 by norm_num)
        (show 2 ≤ k + 2 by omega)
      simpa using h
    omega

/-- C7 amended: after construction `page_size()` is always a power of two
(`bit_ceil`), but `set_page_size n` stores `n` verbatim, so after it
`page_size()` is a power of two only when `n` is. -/
theorem c7_page_size_power_of_two (ps mp : Nat) (c : Cache) (n : Nat) :
    PowerOfTwo ((Cache.new ps mp).page_size)
    ∧ (c.set_page_size n).page_size = n :=
  ⟨⟨log2Ceil ps ps, rfl⟩, rfl⟩

/-- C8 counterexample: with `max_pages = 0` the page written by
`write(1, [9], 0)` is immediately evicted (dirty, into the sink), so the
following same-range read misses and invokes `on_miss`; with a failing
`on_miss` the read returns its error instead of the written bytes. -/
theorem c8_read_after_write_cex :
    Cache.write (Cache.new 4 0) 1 [9] 0
      = .ok (Cache.mk [] [] [⟨⟨1, 0⟩, [9, 0, 0, 0], 268435457⟩] 4 0) 1
    ∧ Cache.read (Cache.mk [] [] [⟨⟨1, 0⟩, [9, 0, 0, 0], 268435457⟩] 4 0) 1 1 0
        (fun _ => .error 7)
      = .err (Cache.mk [] [] [⟨⟨1, 0⟩, [9, 0, 0, 0], 268435457⟩] 4 0) 7 := by
  refine ⟨?_, ?_⟩ <;> decide

/-- C8 witness: the amended read-after-write at a fresh cache with `P = 4`,
`M = 2`, a three-byte unaligned write at offset 2 (spanning two pages). -/
theorem c8_read_after_write_spec_witness :
    ((2 + ([5, 6, 7] : List Byte).length - 1) / (Cache.new 4 2).page_size + 1
      ≤ (Cache.new 4 2).max_pages + 2 / (Cache.new 4 2).page_size)
    ∧ ∃ c1, Cache.write (Cache.new 4 2) 1 [5, 6, 7] 2 = .ok c1 ([5, 6, 7] : List Byte).length
      ∧ ∀ on_miss : OnMiss, ∃ c2,
          Cache.read c1 1 ([5, 6, 7] : List Byte).length 2 on_miss
            = .ok c2 (([5, 6, 7] : List Byte).length, [5, 6, 7]) :=
  ⟨by decide,
    c8_read_after_write_spec (Cache.new 4 2) 1 2 [5, 6, 7]
      (by decide) List.nodup_nil (by intro p hp; simp [Cache.new] at hp) (by decide)
      (by decide) (by decide) (by decide) (by decide)⟩

/-- C9 counterexample: a read miss on a cache with `max_pages = 0` — the
admission policy evicts the just-inserted page, and the C++ code then
dereferences the erased LRU iterator (the model's `ub` marker). -/
theorem c9_admission_evicts_new_page_cex :
    Cache.read (Cache.new 4 0) 1 4 0 (fun _ => .ok (4, [8, 8, 8, 8])) = .ub := by
  decide

/-- C9 amended: when `max_pages ≥ 1`, the admission policy run right after a
page is inserted at the LRU front never removes that page: it stays at the
front and looking its key up still yields it, so the handle used for the
subsequent copy remains valid. -/
theorem c9_admission_keeps_new_page (p : Page) (rest orph : List Page) (M : Nat)
    (hM : 1 ≤ M) :
    (∃ l2, (admitEvict (p :: rest) orph M).1 = p :: l2)
    ∧ lruFind (admitEvict (p :: rest) orph M).1 p.key = some p := by
  have hfront : ∃ l2, (admitEvict (p :: rest) orph M).1 = p :: l2 := by
    unfold admitEvict
    by_cases hlen : (p :: rest).length > M
    · rw [if_pos hlen]
      rw [evictLoop_lru _ _ _ (Nat.sub_le _ _)]
      have hM' : (p :: rest).length - ((p :: rest).length - M) = M := by
        simp only [List.length_cons] at *
        omega
      rw [hM']
      obtain ⟨m, rfl⟩ : ∃ m, M = m + 1 := ⟨M - 1, by omega⟩
      exact ⟨rest.take m, List.take_succ_cons⟩
    · rw [if_neg hlen]
      exact ⟨rest, rfl⟩
  obtain ⟨l2, hl2⟩ := hfront
  refine ⟨⟨l2, hl2⟩, ?_⟩
  rw [hl2]
  simp [lruFind]

/-- C9 witness: the amended admission property evaluated at `M = 1` with a
two-page LRU. -/
theorem c9_admission_keeps_new_page_witness :
    (1 : Nat) ≤ 1
    ∧ ((∃ l2, (admitEvict (Page.mk ⟨1, 1⟩ [2, 2] 2 :: [Page.mk ⟨1, 0⟩ [1, 1] 2]) [] 1).1
          = Page.mk ⟨1, 1⟩ [2, 2] 2 :: l2)
      ∧ lruFind (admitEvict (Page.mk ⟨1, 1⟩ [2, 2] 2 :: [Page.mk ⟨1, 0⟩ [1, 1] 2]) [] 1).1
          (Page.mk ⟨1, 1⟩ [2, 2] 2).key = some (Page.mk ⟨1, 1⟩ [2, 2] 2)) :=
  ⟨le_refl 1,
    c9_admission_keeps_new_page (Page.mk ⟨1, 1⟩ [2, 2] 2) [Page.mk ⟨1, 0⟩ [1, 1] 2] [] 1
      (le_refl 1)⟩

/-- C10: the page span of `Cache::read`/`Cache::write` is computed as
`start = off / P`, `last = (off + len - 1) / P` in wrapping `usize`
arithmetic: for a non-empty buffer (with `off + len ≤ 2^64`) these are
exactly the mathematical endpoints of the byte range's page span, while for
an empty buffer at offset 0 the subtraction wraps to the maximum `usize`
value `2^64 - 1` and the last index becomes `(2^64 - 1) / P`. -/
theorem c10_page_span_wrapping (off len P : Nat) (hP : 0 < P) :
    (0 < len → off + len ≤ U64 →
      pageSpanStart off P = off / P ∧ pageSpanLast off len P = (off + len - 1) / P)
    ∧ sub64 (0 + 0) 1 = U64 - 1
    ∧ pageSpanLast 0 0 P = (U64 - 1) / P := by
  have hwrap : sub64 (0 + 0) 1 = U64 - 1 := by decide
  refine ⟨fun hlen hle => ⟨rfl, ?_⟩, hwrap, ?_⟩
  · show sub64 (off + len) 1 / P = (off + len - 1) / P
    rw [sub64_one (by omega) hle]
  · show sub64 (0 + 0) 1 / P = (U64 - 1) / P
    rw [hwrap]

/-- C10 witness: the span endpoints at `off = 5`, `len = 7`, `P = 4`
(pages 1 and 2), and the wrap case. -/
theorem c10_page_span_wrapping_witness :
    (0 : Nat) < 7
    ∧ (pageSpanStart 5 4 = 1 ∧ pageSpanLast 5 7 4 = 2)
    ∧ pageSpanLast 0 0 4 = (U64 - 1) / 4 := by
  refine ⟨by decide, ?_, ((c10_page_span_wrapping 0 0 4 (by decide)).2.2)⟩
  have h := (c10_page_span_wrapping 5 7 4 (by decide)).1 (by decide) (by decide)
  constructor
  · rw [h.1]
  · rw [h.2]
